import Mathlib

/-! A verification development for `UNIX.c` (a small interactive shell).

The C program is embedded shallowly:

* `char input[]` is a list of characters indexed by offset (`Buffer`), a `char *`
  into it is an offset, `NULL` is `none`;
* `char *args[MAX_ARGS]` is a list of optional offsets (tokenizer) or of
  optional strings (splitter, redirector, launcher);
* system calls are recorded as a trace of `Sys` events, and the operating
  system's answers (does `open` succeed, what does `fork` return) are
  parameters of the model.
-/

namespace UnixShell

/-! ## Constants of the source -/

/-- Source: `#define MAX_INPUT_SIZE 1024`. -/
def MAX_INPUT_SIZE : Nat := 1024

/-- Source: `#define MAX_ARGS 64`. -/
def MAX_ARGS : Nat := 64

/-- Source: `#define MAX_PIPES 10`. -/
def MAX_PIPES : Nat := 10

/-! ## Characters and the input buffer -/

/-- The string terminator `\0`. -/
def NUL : Char := Char.ofNat 0

/-- The tab character `\t`. -/
def TAB : Char := Char.ofNat 9

/-- The space character. -/
def SPACE : Char := Char.ofNat 32

/-- The double quote character. -/
def DQUOTE : Char := Char.ofNat 34

/-- The single quote character. -/
def SQUOTE : Char := Char.ofNat 39

/-- The memory of `char input[]`; a `char *` into it is an offset. -/
abbrev Buffer := List Char

/-- The read `*p`. The buffers handled here are NUL-terminated and every scan
stops at the terminator, so the default is never what decides a result. -/
def peek (buf : Buffer) (p : Nat) : Char := buf.getD p NUL

/-- The write `*p = c`. -/
def poke (buf : Buffer) (p : Nat) (c : Char) : Buffer := buf.set p c

/-- Membership in the delimiter set `" \t"` of the two `strtok` calls. -/
def isDelim (c : Char) : Bool := c == SPACE || c == TAB

/-- The C library's `strspn(s, " \t")` on the characters from `s` on. -/
def strspn : List Char → Nat
  | [] => 0
  | c :: cs => if isDelim c then strspn cs + 1 else 0

/-- The C library's `strcspn(s, " \t")` on the characters from `s` on: it stops
at a delimiter or at the terminator. -/
def strcspn : List Char → Nat
  | [] => 0
  | c :: cs => if isDelim c || c == NUL then 0 else strcspn cs + 1

/-- The result of one `strtok` call: the returned token pointer, the buffer (a
NUL may have been written in it) and the saved position of the next call. -/
structure StrtokResult where
  token : Option Nat
  buf : Buffer
  save : Nat
deriving Repr, DecidableEq

/-- The C library's `strtok(..., " \t")` resuming at offset `save`: skip the
leading delimiters, return `NULL` at the end of the string, else cut the token
at its first delimiter by overwriting that delimiter with NUL. -/
def strtok (buf : Buffer) (save : Nat) : StrtokResult :=
  let s := save + strspn (buf.drop save)
  if peek buf s == NUL then ⟨none, buf, s⟩
  else
    let e := s + strcspn (buf.drop s)
    if peek buf e == NUL then ⟨some s, buf, e⟩
    else ⟨some s, poke buf e NUL, e + 1⟩

/-- The array `char *args[MAX_ARGS]` of pointers into the input buffer. -/
abbrev ArgPtrs := List (Option Nat)

/-- The first loop of `parse_input` (source lines 86-89):
`while (token != NULL && i < MAX_ARGS - 1) { args[i++] = token; token = strtok(NULL, " \t"); }`.
It returns the buffer, the array and `i`. -/
def strtokLoop : Nat → Buffer → Nat → Option Nat → Nat → ArgPtrs → Buffer × ArgPtrs × Nat
  | 0, buf, _, _, i, args => (buf, args, i)
  | fuel + 1, buf, save, token, i, args =>
    match token with
    | none => (buf, args, i)
    | some t =>
      if i < MAX_ARGS - 1 then
        let r := strtok buf save
        strtokLoop fuel r.buf r.save r.token (i + 1) (args.set i (some t))
      else (buf, args, i)

/-- The local variables of the second loop of `parse_input` together with the
memory it writes. -/
structure Scan where
  in_quotes : Bool
  quote_char : Char
  curr_pos : Nat
  token_start : Nat
  i : Nat
  buf : Buffer
  args : ArgPtrs
deriving Repr, DecidableEq

/-- The emission `*curr_pos = 0; args[i++] = token_start;`. -/
def Scan.cut (s : Scan) : Scan :=
  ⟨s.in_quotes, s.quote_char, s.curr_pos, s.token_start, s.i + 1,
    poke s.buf s.curr_pos NUL, s.args.set s.i (some s.token_start)⟩

/-- One iteration of the second loop of `parse_input` (source lines 100-117). -/
def scanStep (s : Scan) : Scan :=
  let c := peek s.buf s.curr_pos
  let s1 : Scan :=
    if c == DQUOTE || c == SQUOTE then
      if !s.in_quotes then
        ⟨true, c, s.curr_pos, s.curr_pos + 1, s.i, s.buf, s.args⟩
      else if c == s.quote_char then
        let t := s.cut
        ⟨false, t.quote_char, t.curr_pos, t.token_start, t.i, t.buf, t.args⟩
      else s
    else if (c == SPACE || c == TAB) && !s.in_quotes then
      let t := if s.curr_pos > s.token_start then s.cut else s
      ⟨t.in_quotes, t.quote_char, t.curr_pos, s.curr_pos + 1, t.i, t.buf, t.args⟩
    else s
  ⟨s1.in_quotes, s1.quote_char, s1.curr_pos + 1, s1.token_start, s1.i, s1.buf, s1.args⟩

/-- The second loop of `parse_input` (source line 99):
`while (*curr_pos != 0 && i < MAX_ARGS - 1)`. Every iteration advances
`curr_pos`, so the length of the buffer is enough fuel. -/
def scanLoop : Nat → Scan → Scan
  | 0, s => s
  | fuel + 1, s =>
    if peek s.buf s.curr_pos != NUL && s.i < MAX_ARGS - 1 then scanLoop fuel (scanStep s)
    else s

/-- The first pass of `parse_input` (source lines 83-90): the `strtok` loop and
`args[i] = NULL`. The loop stores a token in every iteration and stops at
`i = MAX_ARGS - 1`, so `MAX_ARGS` is enough fuel. -/
def strtok_pass (input : Buffer) (args : ArgPtrs) : Buffer × ArgPtrs :=
  -- int i = 0; char *token = strtok(input, " \t");
  let r := strtok input 0
  let p1 := strtokLoop MAX_ARGS r.buf r.save r.token 0 args
  -- args[i] = NULL;
  (p1.1, p1.2.1.set p1.2.2 none)

/-- The second pass of `parse_input` (source lines 92-123), headed "Handle
quotes for arguments with spaces": it starts again at `i = 0` and at the start
of the buffer. -/
def quote_pass (buf : Buffer) (args : ArgPtrs) : Buffer × ArgPtrs :=
  -- in_quotes = 0; quote_char = 0; curr_pos = input; token_start = input; i = 0;
  let s := scanLoop buf.length ⟨false, NUL, 0, 0, 0, buf, args⟩
  -- if (curr_pos > token_start && i < MAX_ARGS - 1) args[i++] = token_start;
  let fin : ArgPtrs × Nat :=
    if s.curr_pos > s.token_start && s.i < MAX_ARGS - 1 then
      (s.args.set s.i (some s.token_start), s.i + 1)
    else (s.args, s.i)
  -- args[i] = NULL;
  (s.buf, fin.1.set fin.2 none)

/-- The function `parse_input(input, args)` (source lines 82-124): the second
pass runs on the buffer and the array the first pass left. The result is the
memory of `input` and of `args`. -/
def parse_input (input : Buffer) (args : ArgPtrs) : Buffer × ArgPtrs :=
  let m := strtok_pass input args
  quote_pass m.1 m.2

/-- The C string at offset `p`: the characters up to the next NUL. -/
def cstring (buf : Buffer) (p : Nat) : String :=
  String.mk ((buf.drop p).takeWhile (fun c => c != NUL))

/-- The entries of a NULL-terminated pointer array before its first `NULL`. -/
def untilNull {α : Type} : List (Option α) → List α
  | some a :: rest => a :: untilNull rest
  | _ => []

/-- The argument strings a reader of `args` sees after `parse_input`. -/
def argvOf (m : Buffer × ArgPtrs) : List String :=
  (untilNull m.2).map (cstring m.1)

/-- The input buffer of a line as `main` prepares it: the characters of the
line and the terminator (`fgets`, then the newline is overwritten with 0). -/
def lineBuffer (line : String) : Buffer := line.toList ++ [NUL]

/-- The tokens `main` gets from `parse_input` for a line, whatever the array
`args` held before. -/
def tokenize (line : String) (stale : ArgPtrs) : List String :=
  argvOf (parse_input (lineBuffer line) stale)

/-- An array `args` of `MAX_ARGS` entries, all `NULL`. -/
def freshArgs : ArgPtrs := List.replicate MAX_ARGS none

/-- Follows the spec's words: the maximal runs of non-space, non-tab characters
of a line, in their order. -/
def wordsAux : List Char → List Char → List String
  | [], cur => if cur.isEmpty then [] else [String.mk cur]
  | c :: cs, cur =>
    if isDelim c then
      (if cur.isEmpty then wordsAux cs [] else String.mk cur :: wordsAux cs [])
    else wordsAux cs (cur ++ [c])

/-- Follows the spec's words: the whitespace-separated words of a line. -/
def specWords (line : String) : List String := wordsAux line.toList []

/-! ## Pipeline splitter (`execute_command`, source lines 145-164) -/

/-- The memory written by the split loop: `commands[0 .. num_commands-1]` are
the stages already closed by their `NULL`, `cur` is `commands[num_commands][0 .. j-1]`.
So `num_commands = commands.length` and `j = cur.length`. -/
structure Split where
  commands : List (List String)
  cur : List String
deriving Repr, DecidableEq

/-- The body of the split loop for the token `args[i]` (source lines 154-161).
`commands` is `malloc(MAX_PIPES * sizeof(char **))` and every stage is
`malloc(MAX_ARGS * sizeof(char *))`: a store outside these blocks is undefined
behaviour and gives `none`. -/
def splitStep (s : Split) (tok : String) : Option Split :=
  if tok == "|" then
    -- commands[num_commands][j] = NULL; num_commands++;
    -- commands[num_commands] = malloc(...); j = 0;
    if s.cur.length < MAX_ARGS ∧ s.commands.length + 1 < MAX_PIPES then
      some ⟨s.commands ++ [s.cur], []⟩
    else none
  else
    -- commands[num_commands][j++] = args[i];
    if s.cur.length < MAX_ARGS then some ⟨s.commands, s.cur ++ [tok]⟩ else none

/-- The loop `for (int i = 0; args[i] != NULL; i++)` of the splitter over the
tokens before the terminator. -/
def splitLoop : List String → Split → Option Split
  | [], s => some s
  | tok :: rest, s =>
    match splitStep s tok with
    | some s1 => splitLoop rest s1
    | none => none

/-- The split of `execute_command` (source lines 145-164): after the loop,
`commands[num_commands][j] = NULL; num_commands++;`. The result lists the
stages `commands[0 .. num_commands-1]`. -/
def split_commands (args : List String) : Option (List (List String)) :=
  match splitLoop args ⟨[], []⟩ with
  | some s => if s.cur.length < MAX_ARGS then some (s.commands ++ [s.cur]) else none
  | none => none

/-! ## System calls -/

/-- A file descriptor, named by where the program got it from. -/
inductive Fd where
  | stdin
  | stdout
  | pipeRead (j : Nat)
  | pipeWrite (j : Nat)
  | file (name : String)
deriving Repr, DecidableEq

/-- The calls the shell makes, in the order a process makes them. -/
inductive Sys where
  | pipe (j : Nat)
  | fork (n : Nat) (ret : Int)
  | openRead (name : Option String)
  | openWrite (name : Option String)
  | dup2 (src dst : Fd)
  | close (fd : Fd)
  | execvp (file : Option String) (argv : List String)
  | waitpid (pid : Int)
  | perror (msg : String)
  | printJob (pid : Int) (name : String)
  | exit (status : Nat)
deriving Repr, DecidableEq

/-- The answers of the operating system, which the program does not decide:
whether `open` succeeds on a name, whether the `j`-th `pipe` call succeeds, what
the `n`-th `fork` returns in the parent, whether `execvp` fails. -/
structure OS where
  canOpen : String → Bool
  pipeOk : Nat → Bool
  forkRet : Nat → Int
  execFails : Option String → List String → Bool

/-! ## Redirector (`setup_io_redirection`, source lines 212-236) -/

/-- The memory of a `char *args[]` whose entries are strings or `NULL`. -/
abbrev ArgVec := List (Option String)

/-- The read `args[i]`; past the block it reads as `NULL`. The loops below stop
at the first `NULL` they scan, and the vectors built by `argVec` end in one. -/
def argAt (args : ArgVec) (i : Nat) : Option String := args.getD i none

/-- The NULL-terminated array holding the tokens `toks`. -/
def argVec (toks : List String) : ArgVec := toks.map some ++ [none]

/-- What `setup_io_redirection` leaves: the array, the calls made, and whether
it ended the process with `exit(1)`. -/
structure Redirected where
  args : ArgVec
  trace : List Sys
  exited : Bool
deriving Repr, DecidableEq

/-- The test `strcmp(t, "<") == 0 || strcmp(t, ">") == 0`. -/
def isRedir (t : String) : Bool := t == "<" || t == ">"

/-- The loop `for (int i = 0; args[i] != NULL; i++)` of `setup_io_redirection`
from index `i` on. After a redirection token the body does `args[i] = NULL; i++`
and the loop header adds one more. `open` on a `NULL` name fails. -/
def redirLoop (canOpen : String → Bool) : Nat → Nat → ArgVec → List Sys → Redirected
  | 0, _, args, tr => ⟨args, tr, false⟩
  | fuel + 1, i, args, tr =>
    match argAt args i with
    | none => ⟨args, tr, false⟩
    | some tok =>
      if tok == "<" then
        -- int fd = open(args[i + 1], O_RDONLY);
        match argAt args (i + 1) with
        | some f =>
          if canOpen f then
            redirLoop canOpen fuel (i + 2) (args.set i none)
              (tr ++ [Sys.openRead (some f), Sys.dup2 (Fd.file f) Fd.stdin, Sys.close (Fd.file f)])
          else ⟨args, tr ++ [Sys.openRead (some f), Sys.perror "open", Sys.exit 1], true⟩
        | none => ⟨args, tr ++ [Sys.openRead none, Sys.perror "open", Sys.exit 1], true⟩
      else if tok == ">" then
        -- int fd = open(args[i + 1], O_WRONLY | O_CREAT | O_TRUNC, 0644);
        match argAt args (i + 1) with
        | some f =>
          if canOpen f then
            redirLoop canOpen fuel (i + 2) (args.set i none)
              (tr ++ [Sys.openWrite (some f), Sys.dup2 (Fd.file f) Fd.stdout, Sys.close (Fd.file f)])
          else ⟨args, tr ++ [Sys.openWrite (some f), Sys.perror "open", Sys.exit 1], true⟩
        | none => ⟨args, tr ++ [Sys.openWrite none, Sys.perror "open", Sys.exit 1], true⟩
      else redirLoop canOpen fuel (i + 1) args tr

/-- The function `setup_io_redirection(args)`. The index grows in every
iteration and the loop stops at the first `NULL`, so the length of the array is
enough fuel. -/
def setup_io_redirection (canOpen : String → Bool) (args : ArgVec) : Redirected :=
  redirLoop canOpen args.length 0 args []

/-- The child after `fork` (source lines 195-198 and 278-281):
`setup_io_redirection(args); execvp(args[0], args); perror("execvp"); exit(1);`.
`execvp` reads its argument vector up to the first `NULL`. -/
def child_exec (os : OS) (args : ArgVec) : List Sys :=
  let r := setup_io_redirection os.canOpen args
  if r.exited then r.trace
  else
    r.trace ++ [Sys.execvp (argAt r.args 0) (untilNull r.args)] ++
      (if os.execFails (argAt r.args 0) (untilNull r.args) then [Sys.perror "execvp", Sys.exit 1]
       else [])

/-- Follows the spec's words: the stage vector with each redirection token and
the token after it removed, every other token kept in its order. The flag says
that the previous token was a redirection token. -/
def stripRedirAux : Bool → List String → List String
  | _, [] => []
  | true, _ :: rest => stripRedirAux false rest
  | false, t :: rest => if isRedir t then stripRedirAux true rest else t :: stripRedirAux false rest

/-- Follows the spec's words: see `stripRedirAux`. -/
def stripRedir (stage : List String) : List String := stripRedirAux false stage

/-- The hypothesis of the redirection claims, as a test: every redirection
token of the stage has a next token, and the file that token names opens. -/
def redirWellFormed (canOpen : String → Bool) : List String → Bool
  | [] => true
  | t :: rest =>
    (if isRedir t then
      (match rest with
       | f :: _ => canOpen f
       | [] => false)
     else true) && redirWellFormed canOpen rest

/-! ## Process launcher, pipeline case (`execute_pipeline`, source lines 238-295) -/

/-- The loop `for (int i = 0; i < num_commands - 1; i++) if (pipe(pipes[i]) < 0) ...`
with `k` iterations left at index `i`. The result is the calls made and whether
the loop ran to its end; `pipes` is `int pipes[MAX_PIPES][2]`, and a store
outside it gives `none`. -/
def createPipes (os : OS) : Nat → Nat → Option (List Sys × Bool)
  | 0, _ => some ([], true)
  | k + 1, i =>
    if i < MAX_PIPES then
      if os.pipeOk i then
        match createPipes os k (i + 1) with
        | some r => some (Sys.pipe i :: r.1, r.2)
        | none => none
      else some ([Sys.pipe i, Sys.perror "pipe"], false)
    else none

/-- The parent's side of the loop `for (int i = 0; i < num_commands; i++) pids[i] = fork(); ...`
with `k` iterations left at index `i`: a negative result ends `execute_pipeline`,
a positive one is stored in `pids[i]` (`pid_t pids[MAX_PIPES + 1]`). The result
is the calls, the stored process ids and whether the loop ran to its end. The
branch `pids[i] == 0` is the child, `pipeline_child`. -/
def forkAll (os : OS) : Nat → Nat → Option (List Sys × List Int × Bool)
  | 0, _ => some ([], [], true)
  | k + 1, i =>
    if i < MAX_PIPES + 1 then
      if os.forkRet i < 0 then some ([Sys.fork i (os.forkRet i), Sys.perror "fork"], [], false)
      else
        match forkAll os k (i + 1) with
        | some r => some (Sys.fork i (os.forkRet i) :: r.1, os.forkRet i :: r.2.1, r.2.2)
        | none => none
    else none

/-- The loop `for (j = 0; j < num_commands - 1; j++) { close(pipes[j][0]); close(pipes[j][1]); }`
(source lines 273-276 in the child, 286-289 in the parent) with `k` iterations
left at index `j`. -/
def closeAll : Nat → Nat → List Sys
  | 0, _ => []
  | k + 1, j => Sys.close (Fd.pipeRead j) :: Sys.close (Fd.pipeWrite j) :: closeAll k (j + 1)

/-- The loop `for (int i = 0; i < num_commands; i++) waitpid(pids[i], NULL, 0);`. -/
def waitAll : List Int → List Sys
  | [] => []
  | pid :: rest => Sys.waitpid pid :: waitAll rest

/-- The calls of the parent in `execute_pipeline(commands, num_commands)`. -/
def execute_pipeline (os : OS) (num_commands : Nat) : Option (List Sys) :=
  match createPipes os (num_commands - 1) 0 with
  | none => none
  | some (pipeCalls, false) => some pipeCalls
  | some (pipeCalls, true) =>
    match forkAll os num_commands 0 with
    | none => none
    | some (forkCalls, _, false) => some (pipeCalls ++ forkCalls)
    | some (forkCalls, pids, true) =>
      some (pipeCalls ++ forkCalls ++ closeAll (num_commands - 1) 0 ++ waitAll pids)

/-- The calls of the child of stage `i` before `setup_io_redirection` (source
lines 262-276). -/
def child_wiring (num_commands i : Nat) : List Sys :=
  (if i > 0 then [Sys.dup2 (Fd.pipeRead (i - 1)) Fd.stdin] else []) ++
  (if i < num_commands - 1 then [Sys.dup2 (Fd.pipeWrite i) Fd.stdout] else []) ++
  closeAll (num_commands - 1) 0

/-- The calls of the child of stage `i` of a pipeline (source lines 259-282);
`commands[i]` is the stage's NULL-terminated vector. -/
def pipeline_child (os : OS) (commands : List (List String)) (i : Nat) : List Sys :=
  child_wiring commands.length i ++ child_exec os (argVec (commands.getD i []))

/-! ## Process launcher, single command, and the job registry -/

/-- Source: `typedef struct { pid_t pid; char *command; } BackgroundProcess;`. -/
structure BackgroundProcess where
  pid : Int
  command : String
deriving Repr, DecidableEq

/-- The global variables `bg_processes` and `bg_process_count`: the list is
`bg_processes[0 .. bg_process_count-1]`. -/
structure Shell where
  bg_processes : List BackgroundProcess
deriving Repr, DecidableEq

/-- The loop of source lines 178-184 from index `i` on: at the first token
equal to `&` it sets `background = 1`, stores `NULL` there and stops. -/
def backgroundLoop : Nat → Nat → ArgVec → Bool × ArgVec
  | 0, _, args => (false, args)
  | fuel + 1, i, args =>
    match argAt args i with
    | none => (false, args)
    | some tok =>
      if tok == "&" then (true, args.set i none) else backgroundLoop fuel (i + 1) args

/-- Source lines 177-184 on the array holding the tokens `args`: the flag
`background` and the array as `fork` finds it. -/
def background_scan (args : List String) : Bool × ArgVec :=
  backgroundLoop (argVec args).length 0 (argVec args)

/-- What `execute_command` has decided when it reaches the launch: a pipeline of
stages, or one command with its `background` flag and its array. -/
inductive Plan where
  | pipeline (commands : List (List String))
  | single (background : Bool) (args : ArgVec)
deriving Repr, DecidableEq

/-- Source lines 145-184 of `execute_command`: split at `|`; with more than one
stage the pipeline is launched, else the array is scanned for `&`. -/
def launch_plan (args : List String) : Option Plan :=
  match split_commands args with
  | none => none
  | some commands =>
    if commands.length > 1 then some (Plan.pipeline commands)
    else some (Plan.single (background_scan args).1 (background_scan args).2)

/-- The parent's side of `execute_command(args)`: the new globals and the calls
made. `none` is undefined behaviour: a store outside an array, or
`strdup(NULL)` when the array starts with `NULL`. -/
def execute_command (os : OS) (sh : Shell) (args : List String) : Option (Shell × List Sys) :=
  match launch_plan args with
  | none => none
  | some (Plan.pipeline commands) =>
    match execute_pipeline os commands.length with
    | some tr => some (sh, tr)
    | none => none
  | some (Plan.single background vec) =>
    -- pid_t pid = fork();
    let pid := os.forkRet 0
    if pid < 0 then some (sh, [Sys.fork 0 pid, Sys.perror "fork"])
    else if background then
      -- bg_processes[bg_process_count].pid = pid; ... = strdup(args[0]); bg_process_count++;
      match argAt vec 0 with
      | some name =>
        if sh.bg_processes.length < MAX_ARGS then
          some (⟨sh.bg_processes ++ [⟨pid, name⟩]⟩, [Sys.fork 0 pid, Sys.printJob pid name])
        else none
      | none => none
    else some (sh, [Sys.fork 0 pid, Sys.waitpid pid])

/-- The child's side of `execute_command` for one command (source lines 193-198). -/
def command_child (os : OS) (args : List String) : List Sys :=
  child_exec os (background_scan args).2

/-! ## Child reaping (`handle_signal`, source lines 75-80) -/

/-- A child process as the kernel knows it until it is reaped. -/
structure Child where
  pid : Int
  terminated : Bool
deriving Repr, DecidableEq

/-- The signal number of `SIGCHLD` on Linux. -/
def SIGCHLD : Nat := 17

/-- The call `waitpid(-1, NULL, WNOHANG)` on the kernel's table of children: a
terminated child is reaped (taken from the table) and its pid returned; with
children but none terminated the result is 0; with no child it is -1. -/
def waitpid_nohang (children : List Child) : Int × List Child :=
  match children.find? (fun c => c.terminated) with
  | some c => (c.pid, children.erase c)
  | none => (if children.isEmpty then -1 else 0, children)

/-- The loop `while (waitpid(-1, NULL, WNOHANG) > 0);`: every iteration that
continues removes a child from the table, so its length plus one is enough fuel. -/
def reapLoop : Nat → List Child → List Child
  | 0, children => children
  | fuel + 1, children =>
    if (waitpid_nohang children).1 > 0 then reapLoop fuel (waitpid_nohang children).2
    else (waitpid_nohang children).2

/-- The handler `handle_signal(sig)` on the kernel's table of children and the
globals of the shell. It has no statement that touches `bg_processes`. -/
def handle_signal (sig : Nat) (children : List Child) (sh : Shell) : List Child × Shell :=
  if sig == SIGCHLD then (reapLoop (children.length + 1) children, sh)
  else (children, sh)

/-! ## Concrete inputs -/

/-- The line `q s q`: one region `s` between two quote characters `q`. -/
def quotedLine (q : Char) (s : String) : String := String.mk (q :: s.toList ++ [q])

/-- An operating system in which every file opens, every `pipe` succeeds, the
`n`-th `fork` returns the process id `100 + n` and `execvp` does not fail. -/
def osAllOk : OS := ⟨fun _ => true, fun _ => true, fun n => 100 + n, fun _ _ => false⟩

/-! ## Lemmas on the splitter -/

theorem intercalate_snoc_append {α : Type} (sep : List α) (xs : List (List α)) (y z : List α) :
    List.intercalate sep (xs ++ [y ++ z]) = List.intercalate sep (xs ++ [y]) ++ z := by
  induction xs with
  | nil => simp [List.intercalate]
  | cons x rest ih =>
    cases rest with
    | nil => simp [List.intercalate]
    | cons x1 rest1 =>
      simp only [List.intercalate, List.cons_append, List.intersperse_cons_cons,
        List.flatten_cons, List.append_assoc] at ih ⊢
      rw [ih]

theorem intercalate_snoc_nil {α : Type} (sep : List α) (xs : List (List α)) (y : List α) :
    List.intercalate sep (xs ++ [y] ++ [[]]) = List.intercalate sep (xs ++ [y]) ++ sep := by
  induction xs with
  | nil => simp [List.intercalate]
  | cons x rest ih =>
    cases rest with
    | nil => simp [List.intercalate]
    | cons x1 rest1 =>
      simp only [List.intercalate, List.cons_append, List.intersperse_cons_cons,
        List.flatten_cons, List.append_assoc] at ih ⊢
      rw [ih]

theorem splitLoop_spec (args : List String) : ∀ s : Split,
    s.cur.length + args.length < MAX_ARGS →
    s.commands.length + args.count "|" + 1 ≤ MAX_PIPES →
    ∃ s1, splitLoop args s = some s1 ∧
      s1.commands.length = s.commands.length + args.count "|" ∧
      s1.cur.length ≤ s.cur.length + args.length ∧
      List.intercalate ["|"] (s1.commands ++ [s1.cur]) =
        List.intercalate ["|"] (s.commands ++ [s.cur]) ++ args ∧
      ((∀ st ∈ s.commands ++ [s.cur], "|" ∉ st) →
        ∀ st ∈ s1.commands ++ [s1.cur], "|" ∉ st) := by
  induction args with
  | nil =>
    intro s _ _
    exact ⟨s, rfl, by simp, by simp, by simp, fun h => h⟩
  | cons tok rest ih =>
    intro s hlen hcnt
    simp only [List.length_cons] at hlen
    by_cases htok : tok = "|"
    · subst htok
      simp only [List.count_cons_self] at hcnt
      have hstep : splitStep s "|" = some ⟨s.commands ++ [s.cur], []⟩ := by
        have h1 : s.cur.length < MAX_ARGS := by omega
        have h2 : s.commands.length + 1 < MAX_PIPES := by omega
        simp [splitStep, h1, h2]
      obtain ⟨s1, hrun, hn, hj, hjoin, hno⟩ := ih ⟨s.commands ++ [s.cur], []⟩
        (by simp only [List.length_nil]; omega)
        (by simp only [List.length_append, List.length_singleton]; omega)
      refine ⟨s1, ?_, ?_, ?_, ?_, ?_⟩
      · simp only [splitLoop, hstep]; exact hrun
      · simp only [List.length_append, List.length_singleton] at hn
        simp only [List.count_cons_self]; omega
      · simp only [List.length_nil] at hj
        simp only [List.length_cons]; omega
      · rw [hjoin, intercalate_snoc_nil]; simp
      · intro h
        apply hno
        intro st hst
        simp only [List.mem_append, List.mem_singleton] at hst
        rcases hst with hst | hst
        · exact h st (by simpa using hst)
        · subst hst; simp
    · have hstep : splitStep s tok = some ⟨s.commands, s.cur ++ [tok]⟩ := by
        have h1 : s.cur.length < MAX_ARGS := by omega
        simp [splitStep, htok, h1]
      have hc : (tok :: rest).count "|" = rest.count "|" := by
        rw [List.count_cons_of_ne (Ne.symm htok)]
      rw [hc] at hcnt
      obtain ⟨s1, hrun, hn, hj, hjoin, hno⟩ := ih ⟨s.commands, s.cur ++ [tok]⟩
        (by simp only [List.length_append, List.length_singleton]; omega) hcnt
      refine ⟨s1, ?_, ?_, ?_, ?_, ?_⟩
      · simp only [splitLoop, hstep]; exact hrun
      · rw [hc]; exact hn
      · simp only [List.length_append, List.length_singleton] at hj
        simp only [List.length_cons]; omega
      · rw [hjoin, intercalate_snoc_append]; simp
      · intro h
        apply hno
        intro st hst
        simp only [List.mem_append, List.mem_singleton] at hst
        rcases hst with hst | hst
        · exact h st (by simp [hst])
        · subst hst
          have := h s.cur (by simp)
          simp only [List.mem_append, List.mem_singleton, not_or]
          exact ⟨this, Ne.symm htok⟩

/-- The split of a token sequence that fits the arrays: what `split_commands`
returns, its length, its stages and their join. -/
theorem split_commands_spec (args : List String) (hlen : args.length < MAX_ARGS)
    (hk : args.count "|" + 1 ≤ MAX_PIPES) :
    ∃ stages, split_commands args = some stages ∧
      stages.length = args.count "|" + 1 ∧
      (∀ st ∈ stages, "|" ∉ st) ∧
      List.intercalate ["|"] stages = args := by
  obtain ⟨s1, hrun, hn, hj, hjoin, hno⟩ := splitLoop_spec args ⟨[], []⟩
    (by simpa using hlen) (by simpa using hk)
  have hj1 : s1.cur.length < MAX_ARGS := by
    simp only [List.length_nil, Nat.zero_add] at hj; omega
  refine ⟨s1.commands ++ [s1.cur], ?_, ?_, ?_, ?_⟩
  · simp [split_commands, hrun, hj1]
  · simp only [List.length_nil, Nat.zero_add] at hn
    simp [hn]
  · exact hno (by simp)
  · rw [hjoin]; simp [List.intercalate]

/-! ## Lemmas on the redirector -/

theorem argAt_append_zero (pre : ArgVec) (a : Option String) (suf : ArgVec) :
    argAt (pre ++ a :: suf) pre.length = a := by
  induction pre with
  | nil => rfl
  | cons x rest ih => simpa [argAt] using ih

theorem argAt_append_one (pre : ArgVec) (a b : Option String) (suf : ArgVec) :
    argAt (pre ++ a :: b :: suf) (pre.length + 1) = b := by
  have h := argAt_append_zero (pre ++ [a]) b suf
  simpa using h

theorem set_append_zero (pre : ArgVec) (a x : Option String) (suf : ArgVec) :
    (pre ++ a :: suf).set pre.length x = pre ++ x :: suf := by
  induction pre with
  | nil => rfl
  | cons y rest _ => simp

theorem redirWellFormed_tail (canOpen : String → Bool) (t : String) (rest : List String)
    (h : redirWellFormed canOpen (t :: rest) = true) : redirWellFormed canOpen rest = true := by
  simp only [redirWellFormed, Bool.and_eq_true] at h
  exact h.2

theorem redirWellFormed_redir (canOpen : String → Bool) (t : String) (rest : List String)
    (h : redirWellFormed canOpen (t :: rest) = true) (ht : isRedir t = true) :
    ∃ f rest1, rest = f :: rest1 ∧ canOpen f = true ∧ redirWellFormed canOpen rest1 = true := by
  cases rest with
  | nil => simp [redirWellFormed, ht] at h
  | cons f rest1 =>
    have h1 := redirWellFormed_tail canOpen t (f :: rest1) h
    have h2 := redirWellFormed_tail canOpen f rest1 h1
    simp only [redirWellFormed, ht, Bool.and_eq_true, if_true] at h
    exact ⟨f, rest1, rfl, h.1, h2⟩

/-- The loop of `setup_io_redirection` on a well-formed stage stored behind the
entries `pre`: it does not exit, it leaves `pre` as it is, and what it leaves of
the stage reads, up to the first `NULL`, as the tokens before the first
redirection token. -/
theorem redirLoop_spec (canOpen : String → Bool) :
    ∀ (fuel : Nat) (toks : List String) (pre : ArgVec) (tr : List Sys),
      toks.length + 1 ≤ fuel →
      redirWellFormed canOpen toks = true →
      (redirLoop canOpen fuel pre.length (pre ++ argVec toks) tr).exited = false ∧
      ∃ suf, (redirLoop canOpen fuel pre.length (pre ++ argVec toks) tr).args = pre ++ suf ∧
        untilNull suf = toks.takeWhile (fun t => !isRedir t) := by
  intro fuel
  induction fuel with
  | zero => intro toks pre tr h _; omega
  | succ fuel ih =>
    intro toks pre tr hfuel hwf
    cases toks with
    | nil =>
      have h0 : argAt (pre ++ argVec []) pre.length = none := argAt_append_zero pre none []
      have hres : redirLoop canOpen (fuel + 1) pre.length (pre ++ argVec []) tr
          = ⟨pre ++ argVec [], tr, false⟩ := by
        simp only [redirLoop, h0]
      rw [hres]
      exact ⟨rfl, [none], rfl, rfl⟩
    | cons t rest =>
      have h0 : argAt (pre ++ argVec (t :: rest)) pre.length = some t :=
        argAt_append_zero pre (some t) (argVec rest)
      by_cases hr : isRedir t = true
      · obtain ⟨f, rest1, hrest, hopen, hwf1⟩ := redirWellFormed_redir canOpen t rest hwf hr
        subst hrest
        have h1 : argAt (pre ++ argVec (t :: f :: rest1)) (pre.length + 1) = some f :=
          argAt_append_one pre (some t) (some f) (argVec rest1)
        have hset : (pre ++ argVec (t :: f :: rest1)).set pre.length none
            = (pre ++ [none, some f]) ++ argVec rest1 := by
          simp [argVec]
        have hidx : pre.length + 2 = (pre ++ [none, some f]).length := by simp
        have hfuel1 : rest1.length + 1 ≤ fuel := by
          simp only [List.length_cons] at hfuel; omega
        have htw : (t :: f :: rest1).takeWhile (fun t => !isRedir t) = [] := by
          simp [List.takeWhile, hr]
        by_cases hlt : t = "<"
        · subst hlt
          simp only [redirLoop, h0, h1, hopen, hset, hidx, beq_self_eq_true, if_true, ↓reduceIte]
          obtain ⟨hex, suf, hargs, huntil⟩ := ih rest1 (pre ++ [none, some f])
            (tr ++ [Sys.openRead (some f), Sys.dup2 (Fd.file f) Fd.stdin, Sys.close (Fd.file f)])
            hfuel1 hwf1
          refine ⟨hex, none :: some f :: suf, ?_, ?_⟩
          · rw [hargs]; simp
          · rw [htw]; rfl
        · have hgt : t = ">" := by
            simp only [isRedir, Bool.or_eq_true, beq_iff_eq] at hr
            rcases hr with h | h
            · exact absurd h hlt
            · exact h
          subst hgt
          have hne : (">" == "<") = false := by decide
          simp only [redirLoop, h0, h1, hopen, hset, hidx, hne, beq_self_eq_true, if_true,
            Bool.false_eq_true, if_false, ↓reduceIte]
          obtain ⟨hex, suf, hargs, huntil⟩ := ih rest1 (pre ++ [none, some f])
            (tr ++ [Sys.openWrite (some f), Sys.dup2 (Fd.file f) Fd.stdout, Sys.close (Fd.file f)])
            hfuel1 hwf1
          refine ⟨hex, none :: some f :: suf, ?_, ?_⟩
          · rw [hargs]; simp
          · rw [htw]; rfl
      · have hr1 : isRedir t = false := by simpa using hr
        have hlt : (t == "<") = false := by
          simp only [isRedir, Bool.or_eq_false_iff] at hr1; exact hr1.1
        have hgt : (t == ">") = false := by
          simp only [isRedir, Bool.or_eq_false_iff] at hr1; exact hr1.2
        have hmem : pre ++ argVec (t :: rest) = (pre ++ [some t]) ++ argVec rest := by
          simp [argVec]
        have hidx : pre.length + 1 = (pre ++ [some t]).length := by simp
        have hfuel1 : rest.length + 1 ≤ fuel := by
          simp only [List.length_cons] at hfuel; omega
        simp only [redirLoop, h0, hlt, hgt, Bool.false_eq_true, if_false, ↓reduceIte]
        rw [hmem, hidx]
        obtain ⟨hex, suf, hargs, huntil⟩ := ih rest (pre ++ [some t]) tr hfuel1
          (redirWellFormed_tail canOpen t rest hwf)
        refine ⟨hex, some t :: suf, ?_, ?_⟩
        · rw [hargs]; simp
        · simp only [untilNull, huntil, List.takeWhile, hr1, Bool.not_false]

/-- The function `setup_io_redirection` on a well-formed stage returns, and the
array it leaves reads as the tokens before the first redirection token. -/
theorem setup_io_redirection_spec (canOpen : String → Bool) (stage : List String)
    (hwf : redirWellFormed canOpen stage = true) :
    (setup_io_redirection canOpen (argVec stage)).exited = false ∧
    untilNull (setup_io_redirection canOpen (argVec stage)).args
      = stage.takeWhile (fun t => !isRedir t) := by
  have h := redirLoop_spec canOpen (argVec stage).length stage [] []
    (by simp [argVec]) hwf
  simp only [List.nil_append, List.length_nil] at h
  obtain ⟨hex, suf, hargs, huntil⟩ := h
  exact ⟨hex, by rw [setup_io_redirection, hargs]; exact huntil⟩

/-- A `takeWhile` is an initial segment all of whose positions pass the test. -/
theorem takeWhile_eq_take {α : Type} (P : α → Bool) (l : List α) :
    ∃ n, n ≤ l.length ∧ l.takeWhile P = l.take n ∧
      ∀ p t, p < n → l[p]? = some t → P t = true := by
  induction l with
  | nil => exact ⟨0, by simp, by simp, by intro p t h; omega⟩
  | cons a rest ih =>
    by_cases ha : P a = true
    · obtain ⟨n, hn, htake, hall⟩ := ih
      refine ⟨n + 1, by simp; omega, by simp [List.takeWhile, ha, htake], ?_⟩
      intro p t hp ht
      cases p with
      | zero => simp at ht; subst ht; exact ha
      | succ q => exact hall q t (by omega) (by simpa using ht)
    · exact ⟨0, by simp, by simp [List.takeWhile, ha], by intro p t h; omega⟩

/-! ## Lemmas on the background scan -/

/-- The loop of source lines 178-184 on a token sequence stored behind the
entries `pre`: the flag says whether some token is `&`, `pre` is left as it is,
and what is left of the sequence reads as the tokens before the first `&`. -/
theorem backgroundLoop_spec :
    ∀ (fuel : Nat) (toks : List String) (pre : ArgVec),
      toks.length + 1 ≤ fuel →
      (backgroundLoop fuel pre.length (pre ++ argVec toks)).1 = toks.contains "&" ∧
      ∃ suf, (backgroundLoop fuel pre.length (pre ++ argVec toks)).2 = pre ++ suf ∧
        untilNull suf = toks.takeWhile (fun t => t != "&") := by
  intro fuel
  induction fuel with
  | zero => intro toks pre h; omega
  | succ fuel ih =>
    intro toks pre hfuel
    cases toks with
    | nil =>
      have h0 : argAt (pre ++ argVec []) pre.length = none := argAt_append_zero pre none []
      have hres : backgroundLoop (fuel + 1) pre.length (pre ++ argVec []) = (false, pre ++ argVec []) := by
        simp only [backgroundLoop, h0]
      rw [hres]
      exact ⟨rfl, [none], rfl, rfl⟩
    | cons t rest =>
      have h0 : argAt (pre ++ argVec (t :: rest)) pre.length = some t :=
        argAt_append_zero pre (some t) (argVec rest)
      by_cases ht : t = "&"
      · subst ht
        have hset : (pre ++ argVec ("&" :: rest)).set pre.length none = pre ++ none :: argVec rest :=
          set_append_zero pre (some "&") none (argVec rest)
        have hres : backgroundLoop (fuel + 1) pre.length (pre ++ argVec ("&" :: rest))
            = (true, pre ++ none :: argVec rest) := by
          simp only [backgroundLoop, h0, hset, beq_self_eq_true, if_true]
        rw [hres]
        refine ⟨by simp, none :: argVec rest, rfl, ?_⟩
        simp [untilNull, List.takeWhile]
      · have hbeq : (t == "&") = false := by simpa using ht
        have hmem : pre ++ argVec (t :: rest) = (pre ++ [some t]) ++ argVec rest := by
          simp [argVec]
        have hidx : pre.length + 1 = (pre ++ [some t]).length := by simp
        have hfuel1 : rest.length + 1 ≤ fuel := by
          simp only [List.length_cons] at hfuel; omega
        have hres : backgroundLoop (fuel + 1) pre.length (pre ++ argVec (t :: rest))
            = backgroundLoop fuel (pre ++ [some t]).length ((pre ++ [some t]) ++ argVec rest) := by
          simp only [backgroundLoop, h0, hbeq, Bool.false_eq_true, if_false]
          rw [hmem, hidx]
        rw [hres]
        obtain ⟨hflag, suf, hargs, huntil⟩ := ih rest (pre ++ [some t]) hfuel1
        refine ⟨?_, some t :: suf, ?_, ?_⟩
        · rw [hflag]
          have hne : ("&" == t) = false := by
            simpa using (fun h : "&" = t => ht h.symm)
          simp [List.contains, List.elem, hne]
        · rw [hargs]; simp
        · have hb : (t != "&") = true := by simp [bne, hbeq]
          simp only [untilNull, huntil, List.takeWhile, hb]

/-- Source lines 177-184 return the flag "some token is `&`" and an array that
reads as the tokens before the first `&`. -/
theorem background_scan_spec (args : List String) :
    (background_scan args).1 = args.contains "&" ∧
    untilNull (background_scan args).2 = args.takeWhile (fun t => t != "&") := by
  have h := backgroundLoop_spec (argVec args).length args [] (by simp [argVec])
  simp only [List.nil_append, List.length_nil] at h
  obtain ⟨hflag, suf, hargs, huntil⟩ := h
  exact ⟨hflag, by rw [background_scan, hargs]; exact huntil⟩

/-- A sequence without `&` is its own `takeWhile`. -/
theorem takeWhile_no_amp (l : List String) (h : "&" ∉ l) :
    l.takeWhile (fun t => t != "&") = l := by
  induction l with
  | nil => rfl
  | cons a rest ih =>
    have ha : a ≠ "&" := fun e => h (by simp [e])
    have hr : "&" ∉ rest := fun e => h (by simp [e])
    have hb : (a != "&") = true := by simp [bne, ha]
    simp only [List.cons_append, List.takeWhile, hb, ih hr]

/-- A sequence whose only `&` is its last token. -/
theorem takeWhile_trailing_amp (init : List String) (h : "&" ∉ init) :
    (init ++ ["&"]).takeWhile (fun t => t != "&") = init := by
  induction init with
  | nil => simp [List.takeWhile]
  | cons a rest ih =>
    have ha : a ≠ "&" := fun e => h (by simp [e])
    have hr : "&" ∉ rest := fun e => h (by simp [e])
    have hb : (a != "&") = true := by simp [bne, ha]
    rw [List.cons_append, List.takeWhile_cons, hb, if_pos rfl, ih hr]

/-! ## Lemmas on child reaping -/

theorem filter_erase_found (l : List Child) (c : Child)
    (h : l.find? (fun c => c.terminated) = some c) :
    (l.erase c).filter (fun c => !c.terminated) = l.filter (fun c => !c.terminated) := by
  induction l with
  | nil => simp at h
  | cons a rest ih =>
    by_cases ha : a.terminated = true
    · have hc : a = c := by simpa [List.find?, ha] using h
      subst hc
      simp [ha]
    · have ha1 : a.terminated = false := by simpa using ha
      have hrest : rest.find? (fun c => c.terminated) = some c := by
        simpa [List.find?, ha1] using h
      have hct : c.terminated = true := by
        have := List.find?_some hrest
        simpa using this
      have hne : a ≠ c := by
        intro e; rw [e] at ha1; rw [ha1] at hct; exact Bool.noConfusion hct
      have hbeq : (a == c) = false := by simpa using hne
      rw [List.erase_cons, hbeq]
      simp [ha1, ih hrest]

/-- The sweep of `handle_signal` reaps every terminated child and no other. -/
theorem reapLoop_spec : ∀ (fuel : Nat) (children : List Child),
    children.length < fuel → (∀ c ∈ children, 0 < c.pid) →
    reapLoop fuel children = children.filter (fun c => !c.terminated) := by
  intro fuel
  induction fuel with
  | zero => intro children h _; omega
  | succ fuel ih =>
    intro children hlen hpos
    cases hfind : children.find? (fun c => c.terminated) with
    | none =>
      have hall : ∀ c ∈ children, (!c.terminated) = true := by
        intro c hc
        have := List.find?_eq_none.mp hfind c hc
        simpa using this
      have hw : waitpid_nohang children = (if children.isEmpty then -1 else 0, children) := by
        simp only [waitpid_nohang, hfind]
      have hnot : ¬ (waitpid_nohang children).1 > 0 := by
        rw [hw]; by_cases he : children.isEmpty = true <;> simp [he]
      have hres : reapLoop (fuel + 1) children = children := by
        simp only [reapLoop, hnot, if_false]; rw [hw]
      rw [hres]
      exact (List.filter_eq_self.mpr hall).symm
    | some c =>
      have hmem : c ∈ children := List.mem_of_find?_eq_some hfind
      have hw : waitpid_nohang children = (c.pid, children.erase c) := by
        simp only [waitpid_nohang, hfind]
      have hgt : (waitpid_nohang children).1 > 0 := by rw [hw]; exact hpos c hmem
      have hres : reapLoop (fuel + 1) children = reapLoop fuel (children.erase c) := by
        simp only [reapLoop, hgt, if_true]; rw [hw]
      rw [hres, ih (children.erase c)]
      · exact filter_erase_found children c hfind
      · rw [List.length_erase_of_mem hmem]
        have : 0 < children.length := List.length_pos_of_mem hmem
        omega
      · intro d hd
        exact hpos d (List.mem_of_mem_erase hd)

/-! ## Lemmas on the pipeline launcher -/

theorem createPipes_ok (os : OS) : ∀ (k i : Nat), i + k ≤ MAX_PIPES →
    (∀ j, i ≤ j → j < i + k → os.pipeOk j = true) →
    createPipes os k i = some ((List.range' i k).map Sys.pipe, true) := by
  intro k
  induction k with
  | zero => intro i _ _; rfl
  | succ k ih =>
    intro i hb hok
    have hi : i < MAX_PIPES := by omega
    have h0 : os.pipeOk i = true := hok i (Nat.le_refl i) (by omega)
    have hrec := ih (i + 1) (by omega) (fun j h1 h2 => hok j (by omega) (by omega))
    simp only [createPipes, hi, h0, hrec, if_true, List.range'_succ, List.map_cons]

theorem forkAll_ok (os : OS) : ∀ (k i : Nat), i + k ≤ MAX_PIPES + 1 →
    (∀ n, i ≤ n → n < i + k → 0 < os.forkRet n) →
    forkAll os k i = some ((List.range' i k).map (fun n => Sys.fork n (os.forkRet n)),
      (List.range' i k).map os.forkRet, true) := by
  intro k
  induction k with
  | zero => intro i _ _; rfl
  | succ k ih =>
    intro i hb hok
    have hi : i < MAX_PIPES + 1 := by omega
    have h0 : ¬ os.forkRet i < 0 := by
      have := hok i (Nat.le_refl i) (by omega); omega
    have hrec := ih (i + 1) (by omega) (fun j h1 h2 => hok j (by omega) (by omega))
    simp only [forkAll, hi, h0, hrec, if_true, if_false, List.range'_succ, List.map_cons]

theorem waitAll_eq_map (pids : List Int) : waitAll pids = pids.map Sys.waitpid := by
  induction pids with
  | nil => rfl
  | cons a rest ih => simp [waitAll, ih]

theorem closeAll_length : ∀ (k j : Nat), (closeAll k j).length = 2 * k := by
  intro k
  induction k with
  | zero => intro j; rfl
  | succ k ih => intro j; simp only [closeAll, List.length_cons, ih]; omega

theorem closeAll_mem : ∀ (k j : Nat) (e : Sys), e ∈ closeAll k j → ∃ fd, e = Sys.close fd := by
  intro k
  induction k with
  | zero => intro j e h; simp [closeAll] at h
  | succ k ih =>
    intro j e h
    simp only [closeAll, List.mem_cons] at h
    rcases h with h | h | h
    · exact ⟨_, h⟩
    · exact ⟨_, h⟩
    · exact ih (j + 1) e h

theorem closeAll_count_read : ∀ (k j0 j : Nat),
    (closeAll k j0).count (Sys.close (Fd.pipeRead j)) = if j0 ≤ j ∧ j < j0 + k then 1 else 0 := by
  intro k
  induction k with
  | zero =>
    intro j0 j
    have : ¬ (j0 ≤ j ∧ j < j0 + 0) := by omega
    rw [if_neg this]; rfl
  | succ k ih =>
    intro j0 j
    simp only [closeAll, List.count_cons, ih (j0 + 1) j]
    by_cases h : j0 = j
    · subst h; simp
    · have h1 : (Sys.close (Fd.pipeRead j0) == Sys.close (Fd.pipeRead j)) = false := by
        simpa using h
      have h2 : (Sys.close (Fd.pipeWrite j0) == Sys.close (Fd.pipeRead j)) = false := by
        simp
      simp only [h1, h2, Bool.false_eq_true, if_false, Nat.add_zero]
      by_cases hin : j0 ≤ j ∧ j < j0 + (k + 1)
      · have : j0 + 1 ≤ j ∧ j < j0 + 1 + k := by omega
        simp [hin, this]
      · have : ¬ (j0 + 1 ≤ j ∧ j < j0 + 1 + k) := by omega
        simp [hin, this]

theorem closeAll_count_write : ∀ (k j0 j : Nat),
    (closeAll k j0).count (Sys.close (Fd.pipeWrite j)) = if j0 ≤ j ∧ j < j0 + k then 1 else 0 := by
  intro k
  induction k with
  | zero =>
    intro j0 j
    have : ¬ (j0 ≤ j ∧ j < j0 + 0) := by omega
    rw [if_neg this]; rfl
  | succ k ih =>
    intro j0 j
    simp only [closeAll, List.count_cons, ih (j0 + 1) j]
    by_cases h : j0 = j
    · subst h; simp
    · have h1 : (Sys.close (Fd.pipeWrite j0) == Sys.close (Fd.pipeWrite j)) = false := by
        simpa using h
      have h2 : (Sys.close (Fd.pipeRead j0) == Sys.close (Fd.pipeWrite j)) = false := by
        simp
      simp only [h1, h2, Bool.false_eq_true, if_false, Nat.add_zero]
      by_cases hin : j0 ≤ j ∧ j < j0 + (k + 1)
      · have : j0 + 1 ≤ j ∧ j < j0 + 1 + k := by omega
        simp [hin, this]
      · have : ¬ (j0 + 1 ≤ j ∧ j < j0 + 1 + k) := by omega
        simp [hin, this]

/-- The parent's calls in `execute_pipeline` when every `pipe` and `fork`
succeeds: the pipes, the forks, the closes, the waits. -/
theorem execute_pipeline_ok (os : OS) (n : Nat) (hn : n ≤ MAX_PIPES)
    (hpipe : ∀ j, j < n - 1 → os.pipeOk j = true)
    (hfork : ∀ i, i < n → 0 < os.forkRet i) :
    execute_pipeline os n = some (
      (List.range (n - 1)).map Sys.pipe ++
      (List.range n).map (fun i => Sys.fork i (os.forkRet i)) ++
      closeAll (n - 1) 0 ++
      (List.range n).map (fun i => Sys.waitpid (os.forkRet i))) := by
  have hp := createPipes_ok os (n - 1) 0 (by omega) (fun j _ h => hpipe j (by omega))
  have hf := forkAll_ok os n 0 (by omega) (fun i _ h => hfork i (by omega))
  simp only [execute_pipeline, hp, hf, waitAll_eq_map, List.range_eq_range', List.map_map]
  rfl

/-- The tokens before the first redirection token are an initial segment of
the stage with its redirection pairs removed. -/
theorem takeWhile_prefix_stripRedir (stage : List String) :
    stage.takeWhile (fun t => !isRedir t) <+: stripRedir stage := by
  unfold stripRedir
  induction stage with
  | nil => simp [stripRedirAux]
  | cons t rest ih =>
    by_cases hr : isRedir t = true
    · simp [List.takeWhile, hr]
    · have hr1 : isRedir t = false := by simpa using hr
      simp only [List.takeWhile, stripRedirAux, hr1, Bool.not_false, Bool.false_eq_true, if_false]
      exact (List.prefix_cons_inj t).mpr ih

/-! ## The claims -/

/-- C1 (defect of the code): on the line `ls -l` the first pass of `parse_input`
leaves the two words `ls` and `-l`, which are the maximal runs of non-blank
characters of the line, but the second pass scans the buffer in which `strtok`
wrote a NUL after `ls`, starts again at `i = 0`, and leaves `args = [ls]`. -/
theorem parse_input_ls_l_loses_word :
    argvOf (strtok_pass (lineBuffer "ls -l") freshArgs) = ["ls", "-l"] ∧
    specWords "ls -l" = ["ls", "-l"] ∧
    tokenize "ls -l" freshArgs = ["ls"] := by
  decide

/-- C2 (defect of the code): the line of the one quoted region `a b` in double
quotes is tokenized to the single argument `a`, not `a b`; the quoted region
`ab` without a blank is tokenized to the two arguments `ab` and `ab`. -/
theorem parse_input_quoted_region_broken :
    tokenize (quotedLine DQUOTE "a b") freshArgs = ["a"] ∧
    tokenize (quotedLine DQUOTE "ab") freshArgs = ["ab", "ab"] := by
  decide

/-- C3: for a token sequence held by `args` (fewer than `MAX_ARGS` tokens) with
`k` tokens equal to `|` and `k + 1` at most `MAX_PIPES`, the split loop of
`execute_command` returns `k + 1` stages, no stage contains a `|` token, and the
stages joined with one `|` token between neighbours are the token sequence. -/
theorem split_commands_stages (args : List String) (hlen : args.length < MAX_ARGS)
    (hk : args.count "|" + 1 ≤ MAX_PIPES) :
    ∃ stages, split_commands args = some stages ∧
      stages.length = args.count "|" + 1 ∧
      (∀ st ∈ stages, "|" ∉ st) ∧
      List.intercalate ["|"] stages = args :=
  split_commands_spec args hlen hk

/-- Witness of C3 on the tokens of `ls -l | wc`. -/
theorem split_commands_stages_witness :
    ∃ stages, split_commands ["ls", "-l", "|", "wc"] = some stages ∧
      stages.length = ["ls", "-l", "|", "wc"].count "|" + 1 ∧
      (∀ st ∈ stages, "|" ∉ st) ∧
      List.intercalate ["|"] stages = ["ls", "-l", "|", "wc"] :=
  split_commands_stages ["ls", "-l", "|", "wc"] (by decide) (by decide)

/-- C4: for a stage in which every redirection token is followed by a token
naming a file that opens, `setup_io_redirection` returns, and the vector it
leaves for `execvp` (the entries before the first `NULL`) has no `<` token, no
`>` token, and consists of the tokens at the positions `0 .. n-1` of the stage,
none of which is a redirection token, so that no kept position comes right after
a redirection token. -/
theorem redirection_tokens_absent_from_argv (os : OS) (stage : List String)
    (hwf : redirWellFormed os.canOpen stage = true) :
    (setup_io_redirection os.canOpen (argVec stage)).exited = false ∧
    "<" ∉ untilNull (setup_io_redirection os.canOpen (argVec stage)).args ∧
    ">" ∉ untilNull (setup_io_redirection os.canOpen (argVec stage)).args ∧
    ∃ n, n ≤ stage.length ∧
      untilNull (setup_io_redirection os.canOpen (argVec stage)).args = stage.take n ∧
      (∀ p t, p < n → stage[p]? = some t → isRedir t = false) ∧
      (∀ q t, q + 1 < n → stage[q]? = some t → t ≠ "<" ∧ t ≠ ">") := by
  obtain ⟨hex, hargv⟩ := setup_io_redirection_spec os.canOpen stage hwf
  have hno : ∀ t ∈ stage.takeWhile (fun t => !isRedir t), isRedir t = false := by
    intro t ht
    have := List.mem_takeWhile_imp ht
    simpa using this
  obtain ⟨n, hn, htake, hall⟩ := takeWhile_eq_take (fun t => !isRedir t) stage
  refine ⟨hex, ?_, ?_, n, hn, ?_, ?_, ?_⟩
  · rw [hargv]; intro h
    have := hno "<" h
    simp [isRedir] at this
  · rw [hargv]; intro h
    have := hno ">" h
    simp [isRedir] at this
  · rw [hargv, htake]
  · intro p t hp ht
    have := hall p t hp ht
    simpa using this
  · intro q t hq ht
    have h1 := hall q t (by omega) ht
    have h2 : isRedir t = false := by simpa using h1
    constructor
    · intro e; subst e; simp [isRedir] at h2
    · intro e; subst e; simp [isRedir] at h2

/-- Witness of C4 on the stage `sort < in -r`. -/
theorem redirection_tokens_absent_from_argv_witness :
    (setup_io_redirection osAllOk.canOpen (argVec ["sort", "<", "in", "-r"])).exited = false ∧
    "<" ∉ untilNull (setup_io_redirection osAllOk.canOpen (argVec ["sort", "<", "in", "-r"])).args ∧
    ">" ∉ untilNull (setup_io_redirection osAllOk.canOpen (argVec ["sort", "<", "in", "-r"])).args ∧
    ∃ n, n ≤ ["sort", "<", "in", "-r"].length ∧
      untilNull (setup_io_redirection osAllOk.canOpen (argVec ["sort", "<", "in", "-r"])).args
        = ["sort", "<", "in", "-r"].take n ∧
      (∀ p t, p < n → ["sort", "<", "in", "-r"][p]? = some t → isRedir t = false) ∧
      (∀ q t, q + 1 < n → ["sort", "<", "in", "-r"][q]? = some t → t ≠ "<" ∧ t ≠ ">") :=
  redirection_tokens_absent_from_argv osAllOk ["sort", "<", "in", "-r"] (by decide)

/-- C5, as stated, fails: the stage `sort < in -r` is well formed and its file
opens, the stage with the redirection pair removed is `[sort, -r]`, but the
child calls `execvp` with the argument vector `[sort]`. -/
theorem redirection_drops_later_tokens :
    redirWellFormed osAllOk.canOpen ["sort", "<", "in", "-r"] = true ∧
    stripRedir ["sort", "<", "in", "-r"] = ["sort", "-r"] ∧
    untilNull (setup_io_redirection osAllOk.canOpen (argVec ["sort", "<", "in", "-r"])).args
      = ["sort"] ∧
    child_exec osAllOk (argVec ["sort", "<", "in", "-r"])
      = [Sys.openRead (some "in"), Sys.dup2 (Fd.file "in") Fd.stdin, Sys.close (Fd.file "in"),
         Sys.execvp (some "sort") ["sort"]] ∧
    untilNull (setup_io_redirection osAllOk.canOpen (argVec ["sort", "<", "in", "-r"])).args
      ≠ stripRedir ["sort", "<", "in", "-r"] := by
  decide

/-- C5, amended: for a stage in which every redirection token is followed by a
token naming a file that opens, `setup_io_redirection` returns and the argument
vector passed to `execvp` is the tokens of the stage before its first
redirection token, in their order; this is an initial segment of the stage with
its redirection pairs removed. -/
theorem execvp_argv_is_tokens_before_first_redirection (os : OS) (stage : List String)
    (hwf : redirWellFormed os.canOpen stage = true) :
    (setup_io_redirection os.canOpen (argVec stage)).exited = false ∧
    untilNull (setup_io_redirection os.canOpen (argVec stage)).args
      = stage.takeWhile (fun t => !isRedir t) ∧
    child_exec os (argVec stage)
      = (setup_io_redirection os.canOpen (argVec stage)).trace ++
        [Sys.execvp (argAt (setup_io_redirection os.canOpen (argVec stage)).args 0)
          (stage.takeWhile (fun t => !isRedir t))] ++
        (if os.execFails (argAt (setup_io_redirection os.canOpen (argVec stage)).args 0)
            (stage.takeWhile (fun t => !isRedir t))
         then [Sys.perror "execvp", Sys.exit 1] else []) ∧
    stage.takeWhile (fun t => !isRedir t) <+: stripRedir stage := by
  obtain ⟨hex, hargv⟩ := setup_io_redirection_spec os.canOpen stage hwf
  refine ⟨hex, hargv, ?_, takeWhile_prefix_stripRedir stage⟩
  simp only [child_exec, hex, hargv, Bool.false_eq_true, if_false]

/-- Witness of the amended C5 on the stage `sort < in -r`. -/
theorem execvp_argv_is_tokens_before_first_redirection_witness :
    (setup_io_redirection osAllOk.canOpen (argVec ["sort", "<", "in", "-r"])).exited = false ∧
    untilNull (setup_io_redirection osAllOk.canOpen (argVec ["sort", "<", "in", "-r"])).args
      = ["sort", "<", "in", "-r"].takeWhile (fun t => !isRedir t) ∧
    child_exec osAllOk (argVec ["sort", "<", "in", "-r"])
      = (setup_io_redirection osAllOk.canOpen (argVec ["sort", "<", "in", "-r"])).trace ++
        [Sys.execvp (argAt (setup_io_redirection osAllOk.canOpen
            (argVec ["sort", "<", "in", "-r"])).args 0)
          (["sort", "<", "in", "-r"].takeWhile (fun t => !isRedir t))] ++
        (if osAllOk.execFails (argAt (setup_io_redirection osAllOk.canOpen
              (argVec ["sort", "<", "in", "-r"])).args 0)
            (["sort", "<", "in", "-r"].takeWhile (fun t => !isRedir t))
         then [Sys.perror "execvp", Sys.exit 1] else []) ∧
    ["sort", "<", "in", "-r"].takeWhile (fun t => !isRedir t)
      <+: stripRedir ["sort", "<", "in", "-r"] :=
  execvp_argv_is_tokens_before_first_redirection osAllOk ["sort", "<", "in", "-r"] (by decide)

/-- A token sequence without `|` that fits `args` is planned as one command. -/
theorem launch_plan_single (args : List String) (hlen : args.length < MAX_ARGS)
    (hpipe : "|" ∉ args) :
    launch_plan args = some (Plan.single (background_scan args).1 (background_scan args).2) := by
  have hc : args.count "|" = 0 := List.count_eq_zero_of_not_mem hpipe
  obtain ⟨stages, hs, hn, _, _⟩ := split_commands_spec args hlen (by rw [hc]; decide)
  have h1 : ¬ stages.length > 1 := by rw [hn, hc]; decide
  simp only [launch_plan, hs, h1, if_false]

/-- C6, as stated, fails: in `sleep & 5` the last token is `5`, not `&`, yet the
command is marked background and launched with the vector `[sleep]`; in
`a & &` the last token is `&`, and the launch vector is `[a]`, not the sequence
without its last token `[a, &]`. -/
theorem background_marker_need_not_be_last :
    launch_plan ["sleep", "&", "5"]
      = some (Plan.single true [some "sleep", none, some "5", none]) ∧
    ["sleep", "&", "5"].getLast? ≠ some "&" ∧
    launch_plan ["a", "&", "&"] = some (Plan.single true [some "a", none, some "&", none]) ∧
    untilNull [some "a", none, some "&", none] ≠ ["a", "&"] := by
  decide

/-- C6, amended: for a token sequence without a `|` token (held by `args`, so
with fewer than `MAX_ARGS` tokens), `execute_command` marks the command as
background if and only if some token is exactly `&`, and the vector used for
launch is the tokens before the first `&`: when the only `&` is the last token
it is the sequence without that last token, and when no token is `&` it is the
whole sequence unchanged. -/
theorem background_iff_some_amp (args : List String) (hlen : args.length < MAX_ARGS)
    (hpipe : "|" ∉ args) :
    ∃ bg vec, launch_plan args = some (Plan.single bg vec) ∧
      (bg = true ↔ "&" ∈ args) ∧
      untilNull vec = args.takeWhile (fun t => t != "&") ∧
      (∀ init, args = init ++ ["&"] → "&" ∉ init → bg = true ∧ untilNull vec = init) ∧
      ("&" ∉ args → bg = false ∧ untilNull vec = args) := by
  obtain ⟨hflag, hvec⟩ := background_scan_spec args
  have hiff : (background_scan args).1 = true ↔ "&" ∈ args := by
    rw [hflag]; simp
  refine ⟨(background_scan args).1, (background_scan args).2,
    launch_plan_single args hlen hpipe, hiff, hvec, ?_, ?_⟩
  · intro init he hno
    refine ⟨hiff.mpr (by rw [he]; simp), ?_⟩
    rw [hvec, he]
    exact takeWhile_trailing_amp init hno
  · intro hno
    refine ⟨?_, ?_⟩
    · cases hb : (background_scan args).1 with
      | false => rfl
      | true => exact absurd (hiff.mp hb) hno
    · rw [hvec]; exact takeWhile_no_amp args hno

/-- Witness of the amended C6 on the tokens of `sleep 5 &`. -/
theorem background_iff_some_amp_witness :
    ∃ bg vec, launch_plan ["sleep", "5", "&"] = some (Plan.single bg vec) ∧
      (bg = true ↔ "&" ∈ ["sleep", "5", "&"]) ∧
      untilNull vec = ["sleep", "5", "&"].takeWhile (fun t => t != "&") ∧
      (∀ init, ["sleep", "5", "&"] = init ++ ["&"] → "&" ∉ init →
        bg = true ∧ untilNull vec = init) ∧
      ("&" ∉ ["sleep", "5", "&"] → bg = false ∧ untilNull vec = ["sleep", "5", "&"]) :=
  background_iff_some_amp ["sleep", "5", "&"] (by decide) (by decide)

/-- C7, as stated, fails: the background launch of `sleep 5 &` inserts the
process id 100 into the registry; after the handler has run its sweep with 100
among the terminated children, the child is reaped and the registry still holds
the entry for 100. -/
theorem reaped_job_stays_in_registry :
    execute_command osAllOk ⟨[]⟩ ["sleep", "5", "&"]
      = some (⟨[⟨100, "sleep"⟩]⟩, [Sys.fork 0 100, Sys.printJob 100 "sleep"]) ∧
    handle_signal SIGCHLD [⟨100, true⟩] ⟨[⟨100, "sleep"⟩]⟩ = ([], ⟨[⟨100, "sleep"⟩]⟩) ∧
    (⟨100, "sleep"⟩ : BackgroundProcess)
      ∈ (handle_signal SIGCHLD [⟨100, true⟩] ⟨[⟨100, "sleep"⟩]⟩).2.bg_processes := by
  decide

/-- C7, amended: for every job registry state, after the handler `handle_signal`
has run its sweep on `SIGCHLD`, every terminated child is reaped from the
kernel's table and every other child is left, and the registry is unchanged:
it holds the same entries as before, the entries of the reaped process ids
included. -/
theorem handle_signal_leaves_registry (children : List Child) (sh : Shell)
    (hpos : ∀ c ∈ children, 0 < c.pid) :
    (handle_signal SIGCHLD children sh).1 = children.filter (fun c => !c.terminated) ∧
    (handle_signal SIGCHLD children sh).2 = sh ∧
    (∀ e, e ∈ (handle_signal SIGCHLD children sh).2.bg_processes ↔ e ∈ sh.bg_processes) := by
  have h : handle_signal SIGCHLD children sh
      = (reapLoop (children.length + 1) children, sh) := by
    simp [handle_signal]
  rw [h]
  exact ⟨reapLoop_spec (children.length + 1) children (Nat.lt_succ_self _) hpos, rfl,
    fun _ => Iff.rfl⟩

/-- Witness of the amended C7: the job 100 has terminated, the child 101 runs. -/
theorem handle_signal_leaves_registry_witness :
    (handle_signal SIGCHLD [⟨100, true⟩, ⟨101, false⟩] ⟨[⟨100, "sleep"⟩]⟩).1
      = [⟨100, true⟩, ⟨101, false⟩].filter (fun c => !c.terminated) ∧
    (handle_signal SIGCHLD [⟨100, true⟩, ⟨101, false⟩] ⟨[⟨100, "sleep"⟩]⟩).2
      = ⟨[⟨100, "sleep"⟩]⟩ ∧
    (∀ e, e ∈ (handle_signal SIGCHLD [⟨100, true⟩, ⟨101, false⟩]
        ⟨[⟨100, "sleep"⟩]⟩).2.bg_processes ↔ e ∈ (⟨[⟨100, "sleep"⟩]⟩ : Shell).bg_processes) :=
  handle_signal_leaves_registry [⟨100, true⟩, ⟨101, false⟩] ⟨[⟨100, "sleep"⟩]⟩ (by decide)

/-- C8: for a pipeline of `n` stages, `n` at most `MAX_PIPES`, in which every
`pipe` and `fork` call succeeds, the parent in `execute_pipeline` makes these
calls in this order: the `n - 1` calls of `pipe`, the `n` calls of `fork` in
stage order, the closes of the pipe ends, and `waitpid` on each of the `n`
process ids the forks returned. -/
theorem execute_pipeline_order (os : OS) (n : Nat) (hn : n ≤ MAX_PIPES)
    (hpipe : ∀ j, j < n - 1 → os.pipeOk j = true)
    (hfork : ∀ i, i < n → 0 < os.forkRet i) :
    execute_pipeline os n = some (
      (List.range (n - 1)).map Sys.pipe ++
      (List.range n).map (fun i => Sys.fork i (os.forkRet i)) ++
      closeAll (n - 1) 0 ++
      (List.range n).map (fun i => Sys.waitpid (os.forkRet i))) :=
  execute_pipeline_ok os n hn hpipe hfork

/-- Witness of C8 on a pipeline of three stages. -/
theorem execute_pipeline_order_witness :
    execute_pipeline osAllOk 3 = some (
      (List.range (3 - 1)).map Sys.pipe ++
      (List.range 3).map (fun i => Sys.fork i (osAllOk.forkRet i)) ++
      closeAll (3 - 1) 0 ++
      (List.range 3).map (fun i => Sys.waitpid (osAllOk.forkRet i))) :=
  execute_pipeline_order osAllOk 3 (by decide) (fun _ _ => rfl)
    (fun i _ => by simp only [osAllOk]; omega)

/-- C9: the calls of the child of stage `i` of a pipeline of `N` stages are:
`dup2` of the read end of pipe `i - 1` onto standard input exactly when
`i > 0`, `dup2` of the write end of pipe `i` onto standard output exactly when
`i < N - 1`, then `2 * (N - 1)` closes in which the read end and the write end
of each of the `N - 1` pipes occur once each, and after these the redirection
and the `execvp` of the stage. -/
theorem pipeline_child_wiring (os : OS) (commands : List (List String)) (i : Nat)
    (hi : i < commands.length) :
    ∃ closes, pipeline_child os commands i =
        (if i > 0 then [Sys.dup2 (Fd.pipeRead (i - 1)) Fd.stdin] else []) ++
        (if i < commands.length - 1 then [Sys.dup2 (Fd.pipeWrite i) Fd.stdout] else []) ++
        closes ++ child_exec os (argVec commands[i]) ∧
      closes.length = 2 * (commands.length - 1) ∧
      (∀ e ∈ closes, ∃ fd, e = Sys.close fd) ∧
      ∀ j, j < commands.length - 1 →
        closes.count (Sys.close (Fd.pipeRead j)) = 1 ∧
        closes.count (Sys.close (Fd.pipeWrite j)) = 1 := by
  refine ⟨closeAll (commands.length - 1) 0, ?_, closeAll_length _ _, closeAll_mem _ _, ?_⟩
  · have hget : commands.getD i [] = commands[i] := by
      simp [List.getD_eq_getElem?_getD, List.getElem?_eq_getElem hi]
    simp only [pipeline_child, child_wiring, hget]
  · intro j hj
    have hin : 0 ≤ j ∧ j < 0 + (commands.length - 1) := ⟨Nat.zero_le j, by omega⟩
    exact ⟨by rw [closeAll_count_read, if_pos hin], by rw [closeAll_count_write, if_pos hin]⟩

/-- Witness of C9: the middle stage of `ls | sort | wc`. -/
theorem pipeline_child_wiring_witness :
    ∃ closes, pipeline_child osAllOk [["ls"], ["sort"], ["wc"]] 1 =
        (if 1 > 0 then [Sys.dup2 (Fd.pipeRead (1 - 1)) Fd.stdin] else []) ++
        (if 1 < [["ls"], ["sort"], ["wc"]].length - 1
          then [Sys.dup2 (Fd.pipeWrite 1) Fd.stdout] else []) ++
        closes ++ child_exec osAllOk (argVec ["sort"]) ∧
      closes.length = 2 * ([["ls"], ["sort"], ["wc"]].length - 1) ∧
      (∀ e ∈ closes, ∃ fd, e = Sys.close fd) ∧
      ∀ j, j < [["ls"], ["sort"], ["wc"]].length - 1 →
        closes.count (Sys.close (Fd.pipeRead j)) = 1 ∧
        closes.count (Sys.close (Fd.pipeWrite j)) = 1 :=
  pipeline_child_wiring osAllOk [["ls"], ["sort"], ["wc"]] 1 (by decide)

/-- C10, as stated, fails: the tokens of `ls |` split into the stages `[ls]`
and `[]`; the parent forks a process for the empty stage 1 and reports nothing,
and the child of that stage calls `execvp` with a `NULL` program name. -/
theorem empty_stage_is_forked :
    split_commands ["ls", "|"] = some [["ls"], []] ∧
    execute_command osAllOk ⟨[]⟩ ["ls", "|"]
      = some (⟨[]⟩, [Sys.pipe 0, Sys.fork 0 100, Sys.fork 1 101,
          Sys.close (Fd.pipeRead 0), Sys.close (Fd.pipeWrite 0),
          Sys.waitpid 100, Sys.waitpid 101]) ∧
    pipeline_child osAllOk [["ls"], []] 1
      = [Sys.dup2 (Fd.pipeRead 0) Fd.stdin, Sys.close (Fd.pipeRead 0),
         Sys.close (Fd.pipeWrite 0), Sys.execvp none []] := by
  decide

/-- C10, amended: for a non-empty token sequence (held by `args`, with at most
`MAX_PIPES` stages) whose split yields a stage `i` with an empty argument
vector, when every `pipe` and `fork` call succeeds the launch of the pipeline
forks a process for every stage, the empty stage `i` included, the parent
reports no failure, and the child of stage `i` reaches `execvp` with a `NULL`
program name and an empty argument vector. -/
theorem empty_stage_still_forked (os : OS) (sh : Shell) (args : List String)
    (stages : List (List String)) (i : Nat)
    (hne : args ≠ []) (hlen : args.length < MAX_ARGS)
    (hk : args.count "|" + 1 ≤ MAX_PIPES)
    (hsplit : split_commands args = some stages)
    (hempty : stages[i]? = some [])
    (hpipe : ∀ j, os.pipeOk j = true) (hfork : ∀ n, 0 < os.forkRet n) :
    ∃ tr, execute_command os sh args = some (sh, tr) ∧
      (∀ n, n < stages.length → Sys.fork n (os.forkRet n) ∈ tr) ∧
      Sys.fork i (os.forkRet i) ∈ tr ∧
      (∀ msg, Sys.perror msg ∉ tr) ∧
      pipeline_child os stages i = child_wiring stages.length i ++ [Sys.execvp none []] ++
        (if os.execFails none [] then [Sys.perror "execvp", Sys.exit 1] else []) := by
  obtain ⟨stages1, hs, hn, _, hjoin⟩ := split_commands_spec args hlen hk
  have hst : stages1 = stages := by
    rw [hs] at hsplit; exact Option.some.inj hsplit
  subst hst
  have hi : i < stages1.length := by
    rcases Nat.lt_or_ge i stages1.length with h | h
    · exact h
    · rw [List.getElem?_eq_none h] at hempty; exact Option.noConfusion hempty
  have hcount : 1 ≤ args.count "|" := by
    rcases Nat.eq_zero_or_pos (args.count "|") with h0 | h0
    · exfalso
      rw [h0] at hn
      match stages1, hn, hi, hempty, hjoin with
      | [st], _, hi1, hempty1, hjoin1 =>
        have hi0 : i = 0 := by simpa using hi1
        subst hi0
        have hst : st = [] := by simpa using hempty1
        subst hst
        exact hne (by simpa [List.intercalate] using hjoin1.symm)
    · exact h0
  have hlen2 : stages1.length > 1 := by omega
  have hplan : launch_plan args = some (Plan.pipeline stages1) := by
    simp only [launch_plan, hs, hlen2, if_true]
  have hrun := execute_pipeline_ok os stages1.length (by omega)
    (fun j _ => hpipe j) (fun n _ => hfork n)
  have hforks : ∀ n, n < stages1.length →
      Sys.fork n (os.forkRet n) ∈
        (List.range (stages1.length - 1)).map Sys.pipe ++
        (List.range stages1.length).map (fun i => Sys.fork i (os.forkRet i)) ++
        closeAll (stages1.length - 1) 0 ++
        (List.range stages1.length).map (fun i => Sys.waitpid (os.forkRet i)) := by
    intro n hn1
    simp only [List.mem_append, List.mem_map, List.mem_range]
    exact Or.inl (Or.inl (Or.inr ⟨n, hn1, rfl⟩))
  refine ⟨_, by simp only [execute_command, hplan, hrun], hforks, hforks i hi, ?_, ?_⟩
  · intro msg hmem
    simp only [List.mem_append, List.mem_map, List.mem_range] at hmem
    rcases hmem with ((⟨j, _, hj⟩ | ⟨j, _, hj⟩) | hc) | ⟨j, _, hj⟩
    · exact Sys.noConfusion hj
    · exact Sys.noConfusion hj
    · obtain ⟨fd, hfd⟩ := closeAll_mem _ _ _ hc
      exact Sys.noConfusion hfd
    · exact Sys.noConfusion hj
  · have hget : stages1.getD i [] = [] := by
      simp [List.getD_eq_getElem?_getD, hempty]
    have hexec : child_exec os (argVec []) = [Sys.execvp none []] ++
        (if os.execFails none [] then [Sys.perror "execvp", Sys.exit 1] else []) := rfl
    simp only [pipeline_child, hget, hexec, List.append_assoc]

/-- Witness of the amended C10 on the tokens of `ls |`. -/
theorem empty_stage_still_forked_witness :
    ∃ tr, execute_command osAllOk ⟨[]⟩ ["ls", "|"] = some (⟨[]⟩, tr) ∧
      (∀ n, n < [["ls"], ([] : List String)].length → Sys.fork n (osAllOk.forkRet n) ∈ tr) ∧
      Sys.fork 1 (osAllOk.forkRet 1) ∈ tr ∧
      (∀ msg, Sys.perror msg ∉ tr) ∧
      pipeline_child osAllOk [["ls"], []] 1
        = child_wiring [["ls"], ([] : List String)].length 1 ++ [Sys.execvp none []] ++
          (if osAllOk.execFails none [] then [Sys.perror "execvp", Sys.exit 1] else []) :=
  empty_stage_still_forked osAllOk ⟨[]⟩ ["ls", "|"] [["ls"], []] 1 (by decide) (by decide)
    (by decide) (by decide) (by decide) (fun _ => rfl)
    (fun n => by simp only [osAllOk]; omega)

end UnixShell
